import Mathlib

/-!
Shallow embedding of the histogram subsystem of the `platform` repository
(`HistogramBin`, the three bin generators, `Histogram` construction /
lookup / add / reset / total, and `GenericBlockTimer`).

The numeric type `T` of the C++ template is modelled by `Int` together with
two parameters `tmin`/`tmax` standing for `std::numeric_limits<T>::min()` /
`::max()`; every representable value `v` satisfies `tmin ≤ v ∧ v ≤ tmax`.
`double` quantities (generator widths, growth factors, powers) are modelled
by `ℚ`; `static_cast<T>(double)` is truncation toward zero (`truncQ`).
Bucket counters (`std::atomic<size_t>`) are modelled by `Nat`; the
32-bit `int` accumulator that `Histogram::total`'s `std::accumulate`
deduces from its literal `0` initial value is modelled exactly, with the
`int`/`size_t` conversions made explicit.  All claims treated here are
about sequential behaviour.
-/

namespace Platform

/-- `HistogramBin<T>`: interval `[start, stop)` plus a counter.
The C++ field `_end` is called `stop` because `end` is reserved in Lean. -/
structure HistogramBin where
  start : Int
  stop : Int
  count : Nat
deriving DecidableEq, Repr

/-- The placeholder bin used for out-of-range list indexing in the model. -/
def defaultBin : HistogramBin := ⟨0, 0, 0⟩

/-- Start boundary of the `i`-th bin of a bin sequence. -/
def sAt (bins : List HistogramBin) (i : Nat) : Int := (bins.getD i defaultBin).start

/-- End boundary of the `i`-th bin of a bin sequence. -/
def eAt (bins : List HistogramBin) (i : Nat) : Int := (bins.getD i defaultBin).stop

/-- Counter of the `i`-th bin of a bin sequence. -/
def cAt (bins : List HistogramBin) (i : Nat) : Nat := (bins.getD i defaultBin).count

/-- `HistogramBin::accepts`:
`value >= _start && (value < _end || value == std::numeric_limits<T>::max())`. -/
def accepts (tmax : Int) (b : HistogramBin) (v : Int) : Bool :=
  decide (b.start ≤ v ∧ (v < b.stop ∨ v = tmax))

/-- One round of `std::upper_bound`'s binary search (libstdc++ shape:
`half = len/2; middle = first + half; comp(val, *middle) ? len = half :
(first = middle + 1, len -= half + 1)`), with the comparator
`BinCompare` (`t < b->end()`), run on the list of bin end boundaries.
`fuel` is an upper bound on `len` making the recursion structural; all
call sites use `fuel = len`. -/
def ubGo (L : List Int) (v : Int) : Nat → Nat → Nat → Nat
  | 0, first, _ => first
  | fuel + 1, first, len =>
    if len = 0 then first
    else
      let half := len / 2
      if v < L.getD (first + half) 0 then
        ubGo L v fuel first half
      else
        ubGo L v fuel (first + half + 1) (len - half - 1)

/-- `std::upper_bound(bins.begin(), bins.end(), amount, BinCompare())`,
returning the index of the iterator. -/
def upperBoundIdx (L : List Int) (v : Int) : Nat := ubGo L v L.length 0 L.length

/-- `Histogram::findBin`, returning the index of the found bin.
The source dereferences `bins.back()` when `amount == max`; an empty bin
sequence (undefined behaviour in the source) is mapped to `none`. -/
def findBinIdx (tmax : Int) (bins : List HistogramBin) (v : Int) : Option Nat :=
  if v = tmax then
    if bins.isEmpty then none else some (bins.length - 1)
  else
    let j := upperBoundIdx (bins.map HistogramBin.stop) v
    if j < bins.length then
      if accepts tmax (bins.getD j defaultBin) v then some j else none
    else none

/-- Add `c` to the counter of the `i`-th bin (`HistogramBin::incr`). -/
def modifyCount : List HistogramBin → Nat → Nat → List HistogramBin
  | [], _, _ => []
  | b :: bs, 0, c => ⟨b.start, b.stop, b.count + c⟩ :: bs
  | b :: bs, i + 1, c => b :: modifyCount bs i c

/-- `Histogram::add`: `findBin(amount)->incr(count)`.  The source performs
no null check; a lookup miss dereferences `NULL`, modelled as `none`. -/
def add (tmax : Int) (bins : List HistogramBin) (v : Int) (c : Nat) :
    Option (List HistogramBin) :=
  (findBinIdx tmax bins v).map (fun j => modifyCount bins j c)

/-- `Histogram::reset`: set every bin's counter to 0. -/
def resetBins (bins : List HistogramBin) : List HistogramBin :=
  bins.map (fun b => ⟨b.start, b.stop, 0⟩)

/-- Conversion of a signed `int` value to `size_t` (64-bit here, as on
LP64/LLP64 targets): two's-complement, i.e. reduction mod `2^64`.  Used
where `Histogram::total`'s `int` accumulator is passed as the `size_t`
first argument of `HistogramBinSampleAdder` and where the final `int`
result converts to the `size_t` return type of `total()`. -/
def toSizeT (i : Int) : Nat := (i % (2 ^ 64 : Int)).toNat

/-- Conversion of a `size_t` value to a 32-bit signed `int`: reduction
mod `2^32` into `[-2^31, 2^31)` (the universal two's-complement
behaviour, defined as such since C++20).  This is the assignment back
into the `int` accumulator that `std::accumulate` deduces from the
literal `0` initial value in `Histogram::total`. -/
def toInt32 (n : Nat) : Int :=
  if n % 2 ^ 32 < 2 ^ 31 then ((n % 2 ^ 32 : Nat) : Int)
  else ((n % 2 ^ 32 : Nat) : Int) - 2 ^ 32

/-- One accumulation step of `Histogram::total`:
`HistogramBinSampleAdder` computes `n + b->count()` in `size_t`
(wrapping mod `2^64`), and `std::accumulate` assigns the result back
into its `int` accumulator. -/
def totalStep (acc : Int) (b : HistogramBin) : Int :=
  toInt32 ((toSizeT acc + b.count) % 2 ^ 64)

/-- `Histogram::total`: `std::accumulate(begin(), end(), 0, a)` with
`HistogramBinSampleAdder a`.  The accumulation type is deduced from the
literal `0`, i.e. `int`, so each step's `size_t` result is truncated into
a 32-bit signed accumulator; the final `int` converts back to the
`size_t` return type. -/
def total (bins : List HistogramBin) : Nat :=
  toSizeT (bins.foldl totalStep 0)

/-- The mutating operations a built histogram supports. -/
inductive HOp where
  | addOp : Int → Nat → HOp
  | resetOp : HOp
deriving DecidableEq, Repr

/-- Apply one operation; `none` models the null dereference of a failed
`add` lookup. -/
def applyOp (tmax : Int) (bins : List HistogramBin) : HOp → Option (List HistogramBin)
  | HOp.addOp v c => add tmax bins v c
  | HOp.resetOp => some (resetBins bins)

/-- Apply a sequence of operations. -/
def applyOps (tmax : Int) : List HistogramBin → List HOp → Option (List HistogramBin)
  | bins, [] => some bins
  | bins, op :: rest => (applyOp tmax bins op).bind (fun b2 => applyOps tmax b2 rest)

/-- The first half of the padding in `Histogram::fill`:
`if (bins.front()->start() > min)` prepend `[min, bins.front()->start())`.
`bins.front()` on an empty sequence is undefined behaviour in the source;
the model returns `[]`. -/
def padLow (tmin : Int) : List HistogramBin → List HistogramBin
  | [] => []
  | b :: bs => if tmin < b.start then ⟨tmin, b.start, 0⟩ :: b :: bs else b :: bs

/-- The second half of the padding: `if (bins.back()->end() < max)` append
`[bins.back()->end(), max)`. -/
def padHigh (tmax : Int) (l : List HistogramBin) : List HistogramBin :=
  if eAt l (l.length - 1) < tmax then l ++ [⟨eAt l (l.length - 1), tmax, 0⟩] else l

def padBins (tmin tmax : Int) : List HistogramBin → List HistogramBin
  | [] => []
  | b :: bs => padHigh tmax (padLow tmin (b :: bs))

/-- Inner loop of `Histogram::verify`: walk the bins carrying `prev`
(initially `min`), requiring each bin's start to equal `prev`, and finally
`prev == max`.  (The source repeats the same start check twice; the second
check is redundant and does not change the result.) -/
def verifyFrom (tmax : Int) : Int → List HistogramBin → Bool
  | prev, [] => prev == tmax
  | prev, b :: bs => if b.start == prev then verifyFrom tmax b.stop bs else false

/-- `Histogram::verify`. -/
def verify (tmin tmax : Int) (bins : List HistogramBin) : Bool :=
  verifyFrom tmax tmin bins

/-- `Histogram::fill` applied to the bins produced by the generator: pad,
then call `verify()`.  The source discards `verify`'s boolean result
(`verify();` as the last statement of `fill`), which the `let _ :=`
reproduces. -/
def fill (tmin tmax : Int) (gen : List HistogramBin) : List HistogramBin :=
  let padded := padBins tmin tmax gen
  let _ := verify tmin tmax padded
  padded

/-- Histogram construction from the bins the generator produced
(the constructor calls `fill`). -/
def histBuild (tmin tmax : Int) (gen : List HistogramBin) : List HistogramBin :=
  fill tmin tmax gen

/-! ### Histogram invariants (spec §3) -/

/-- Contiguity: `bucket[i].end == bucket[i+1].start` for adjacent pairs. -/
def contiguous (bins : List HistogramBin) : Prop :=
  ∀ i < bins.length - 1, eAt bins i = sAt bins (i + 1)

/-- Buckets sorted ascending by start. -/
def sortedStarts (bins : List HistogramBin) : Prop :=
  ∀ i < bins.length - 1, sAt bins i ≤ sAt bins (i + 1)

/-- Every bin is an interval: `start ≤ end`. -/
def binsWF (bins : List HistogramBin) : Prop :=
  ∀ i < bins.length, sAt bins i ≤ eAt bins i

/-- The contiguity-and-full-coverage invariant: nonempty, contiguous,
first start at the domain minimum, last end at the domain maximum. -/
def goodBins (tmin tmax : Int) (bins : List HistogramBin) : Prop :=
  bins ≠ [] ∧ contiguous bins ∧ sAt bins 0 = tmin ∧
    eAt bins (bins.length - 1) = tmax

instance (bins : List HistogramBin) : Decidable (contiguous bins) :=
  inferInstanceAs (Decidable (∀ i < bins.length - 1, eAt bins i = sAt bins (i + 1)))

instance (bins : List HistogramBin) : Decidable (sortedStarts bins) :=
  inferInstanceAs (Decidable (∀ i < bins.length - 1, sAt bins i ≤ sAt bins (i + 1)))

instance (bins : List HistogramBin) : Decidable (binsWF bins) :=
  inferInstanceAs (Decidable (∀ i < bins.length, sAt bins i ≤ eAt bins i))

instance (tmin tmax : Int) (bins : List HistogramBin) :
    Decidable (goodBins tmin tmax bins) :=
  inferInstanceAs (Decidable (bins ≠ [] ∧ contiguous bins ∧ sAt bins 0 = tmin ∧
    eAt bins (bins.length - 1) = tmax))

/-- Boundary data of an operation lies within the representable domain
(automatic in the C++ source, where values have type `T`).  Used to
quantify over operation sequences. -/
def opInRange (tmin tmax : Int) : HOp → Prop
  | HOp.addOp v _ => tmin ≤ v ∧ v ≤ tmax
  | HOp.resetOp => True

instance (tmin tmax : Int) (op : HOp) : Decidable (opInRange tmin tmax op) :=
  match op with
  | HOp.addOp _ _ => inferInstanceAs (Decidable (_ ∧ _))
  | HOp.resetOp => inferInstanceAs (Decidable True)

/-! ### Generators -/

/-- `static_cast<T>` applied to a `double`, i.e. truncation toward zero. -/
def truncQ (q : ℚ) : Int :=
  if q < 0 then -(Int.ofNat (q.num.natAbs / q.den)) else Int.ofNat (q.num.natAbs / q.den)

/-- `GrowingWidthGenerator<T>` state: `_growth`, `_start`, `_width`. -/
structure GrowingWidthGenerator where
  growth : ℚ
  start : Int
  width : ℚ
deriving DecidableEq, Repr

/-- The constructor `GrowingWidthGenerator(start, width, growth)`
(`_width(static_cast<double>(width))`). -/
def gwInit (s w : Int) (g : ℚ) : GrowingWidthGenerator := ⟨g, s, (w : ℚ)⟩

/-- `GrowingWidthGenerator::operator()`: emit
`[_start, _start + cast(_width))`, then `_start += cast(_width)`,
`_width *= _growth`. -/
def gwNext (st : GrowingWidthGenerator) : HistogramBin × GrowingWidthGenerator :=
  let c := truncQ st.width
  (⟨st.start, st.start + c, 0⟩, ⟨st.growth, st.start + c, st.width * st.growth⟩)

/-- Generator state after `k` invocations. -/
def gwState (st : GrowingWidthGenerator) : Nat → GrowingWidthGenerator
  | 0 => st
  | k + 1 => (gwNext (gwState st k)).2

/-- The bin produced by the `k`-th (0-based) invocation. -/
def gwBucket (st : GrowingWidthGenerator) (k : Nat) : HistogramBin :=
  (gwNext (gwState st k)).1

/-- `FixedInputGenerator<T>` state: the boundary sequence and the iterator
position. -/
structure FixedInputGenerator where
  input : List Int
  pos : Nat
deriving DecidableEq, Repr

/-- `FixedInputGenerator::operator()`: throw `overflow_error` when
`it + 1 >= end`, otherwise emit `[*it, *(it+1))` and advance. -/
def fixedNext (g : FixedInputGenerator) : Option (HistogramBin × FixedInputGenerator) :=
  if g.pos + 1 ≥ g.input.length then none
  else some (⟨g.input.getD g.pos 0, g.input.getD (g.pos + 1) 0, 0⟩, ⟨g.input, g.pos + 1⟩)

/-- Result of `k` invocations of a fixed-input generator started on `s`:
the bins produced so far and the final state, or `none` if any invocation
overflowed. -/
def fixedRun (s : List Int) : Nat → Option (List HistogramBin × FixedInputGenerator)
  | 0 => some ([], ⟨s, 0⟩)
  | k + 1 =>
    (fixedRun s k).bind fun p =>
      (fixedNext p.2).map fun q => (p.1 ++ [q.1], q.2)

/-- `ExponentialGenerator<T>` state: `_start` (the exponent, a `uint64_t`)
and `_power`. -/
structure ExponentialGenerator where
  start : Nat
  power : ℚ
deriving DecidableEq, Repr

/-- `ExponentialGenerator::operator()`: emit
`[cast(pow(_power, _start)), cast(pow(_power, _start + 1)))` and increment
the exponent. -/
def expNext (g : ExponentialGenerator) : HistogramBin × ExponentialGenerator :=
  (⟨truncQ (g.power ^ g.start), truncQ (g.power ^ (g.start + 1)), 0⟩,
   ⟨g.start + 1, g.power⟩)

/-- Exponential generator state after `k` invocations. -/
def expState (g : ExponentialGenerator) : Nat → ExponentialGenerator
  | 0 => g
  | k + 1 => (expNext (expState g k)).2

/-- The bin produced by the `k`-th (0-based) invocation. -/
def expBucket (g : ExponentialGenerator) (k : Nat) : HistogramBin :=
  (expNext (expState g k)).1

/-! ### Scoped timer -/

/-- The observable side effects of `GenericBlockTimer`'s destructor. -/
structure TimerEffects where
  histAdd : Option Nat
  outLine : Option (String × Nat)
  warn : Option (String × Nat)
deriving DecidableEq, Repr

/-- `GenericBlockTimer::~GenericBlockTimer` together with `log`, as a
function of the elapsed nanoseconds `spent = gethrtime() - start`:
if `dest` was supplied, `dest->add(spent / 1000)`; if an output stream and
a name were supplied, write `name \t spent`; if `THRESHOLD_MS > 0`, a name
was supplied and `spent / 1000000 > THRESHOLD_MS`, warn on `stderr` with
the name and the millisecond value. -/
def blockTimerExit (thresholdMs : Nat) (hasDest : Bool) (name : Option String)
    (hasOut : Bool) (spent : Nat) : TimerEffects :=
  { histAdd := if hasDest then some (spent / 1000) else none
    outLine :=
      match name, hasOut with
      | some n, true => some (n, spent)
      | _, _ => none
    warn :=
      if 0 < thresholdMs then
        match name with
        | some n =>
          if thresholdMs < spent / 1000000 then some (n, spent / 1000000) else none
        | none => none
      else none }

/-! ### Basic list lemmas -/

theorem isEmpty_eq_false_of_ne_nil {l : List HistogramBin} (h : l ≠ []) :
    l.isEmpty = false := by
  cases l with
  | nil => exact absurd rfl h
  | cons a as => rfl

theorem getD_map_stop (bins : List HistogramBin) (i : Nat) (h : i < bins.length) :
    (bins.map HistogramBin.stop).getD i 0 = eAt bins i := by
  induction bins generalizing i with
  | nil => simp at h
  | cons b bs ih =>
    cases i with
    | zero => rfl
    | succ j =>
      have hj : j < bs.length := by simpa using h
      simpa [eAt, List.getD_cons_succ] using ih j hj

/-! ### The `upper_bound` binary search invariant

The search maintains: every element strictly left of `first` that has been
compared was `≤ v`, and the element at `first + len` (if any) was `> v`.
Crucially this needs no sortedness hypothesis on `L`. -/

theorem ubGo_spec (L : List Int) (v : Int) :
    ∀ fuel len first, len ≤ fuel → first + len ≤ L.length →
      (first + len = L.length ∨ v < L.getD (first + len) 0) →
      (first = 0 ∨ L.getD (first - 1) 0 ≤ v) →
      first ≤ ubGo L v fuel first len ∧
      ubGo L v fuel first len ≤ first + len ∧
      (ubGo L v fuel first len = L.length ∨ v < L.getD (ubGo L v fuel first len) 0) ∧
      (ubGo L v fuel first len = 0 ∨ L.getD (ubGo L v fuel first len - 1) 0 ≤ v) := by
  intro fuel
  induction fuel with
  | zero =>
    intro len first hlf hle hR hL
    have hlen : len = 0 := Nat.le_zero.mp hlf
    subst hlen
    simp only [ubGo]
    exact ⟨Nat.le_refl _, Nat.le_add_right _ _, by simpa using hR, hL⟩
  | succ n ih =>
    intro len first hlf hle hR hL
    rcases Nat.eq_zero_or_pos len with h0 | hpos
    · subst h0
      simp only [ubGo, if_pos rfl]
      exact ⟨Nat.le_refl _, Nat.le_add_right _ _, by simpa using hR, hL⟩
    · have h0 : len ≠ 0 := Nat.pos_iff_ne_zero.mp hpos
      have hstep : ubGo L v (n + 1) first len =
          if v < L.getD (first + len / 2) 0 then ubGo L v n first (len / 2)
          else ubGo L v n (first + len / 2 + 1) (len - len / 2 - 1) := by
        simp only [ubGo, if_neg h0]
      have hhalf : len / 2 < len := Nat.div_lt_self hpos (by norm_num)
      by_cases hc : v < L.getD (first + len / 2) 0
      · rw [hstep, if_pos hc]
        obtain ⟨a, b, c, d⟩ := ih (len / 2) first (by omega) (by omega) (Or.inr hc) hL
        exact ⟨a, by omega, c, d⟩
      · rw [hstep, if_neg hc]
        have hle2 : L.getD (first + len / 2) 0 ≤ v := le_of_not_lt hc
        have heq : (first + len / 2 + 1) + (len - len / 2 - 1) = first + len := by omega
        obtain ⟨a, b, c, d⟩ := ih (len - len / 2 - 1) (first + len / 2 + 1) (by omega)
          (by omega) (by rw [heq]; exact hR) (Or.inr (by simpa using hle2))
        exact ⟨by omega, by omega, c, d⟩

theorem upperBoundIdx_spec (L : List Int) (v : Int) :
    upperBoundIdx L v ≤ L.length ∧
    (upperBoundIdx L v = L.length ∨ v < L.getD (upperBoundIdx L v) 0) ∧
    (upperBoundIdx L v = 0 ∨ L.getD (upperBoundIdx L v - 1) 0 ≤ v) := by
  obtain ⟨a, b, c, d⟩ := ubGo_spec L v L.length L.length 0 (Nat.le_refl _)
    (by omega) (Or.inl (by omega)) (Or.inl rfl)
  exact ⟨by simpa [upperBoundIdx] using b, by simpa [upperBoundIdx] using c,
    by simpa [upperBoundIdx] using d⟩

/-- Keystone lemma: on a bin sequence satisfying the contiguity and
full-coverage invariant, `findBin` finds a bin for every representable
value, and for `v ≠ max` the found bin contains `v` as an interval.
No sortedness hypothesis is needed. -/
theorem findBinIdx_good (tmin tmax : Int) (bins : List HistogramBin)
    (hg : goodBins tmin tmax bins) (v : Int) (hlo : tmin ≤ v) (hhi : v ≤ tmax) :
    ∃ j, findBinIdx tmax bins v = some j ∧ j < bins.length ∧
      (v ≠ tmax → sAt bins j ≤ v ∧ v < eAt bins j) := by
  obtain ⟨hne, hcont, hhead, hlast⟩ := hg
  have hlen : 0 < bins.length := List.length_pos.mpr hne
  by_cases hmax : v = tmax
  · refine ⟨bins.length - 1, ?_, by omega, fun h => absurd hmax h⟩
    simp [findBinIdx, hmax, isEmpty_eq_false_of_ne_nil hne]
  · have hlenL : (bins.map HistogramBin.stop).length = bins.length :=
      List.length_map _ _
    obtain ⟨hub_le, hub_r, hub_l⟩ := upperBoundIdx_spec (bins.map HistogramBin.stop) v
    have hjne : upperBoundIdx (bins.map HistogramBin.stop) v ≠
        (bins.map HistogramBin.stop).length := by
      intro hEq
      rcases hub_l with h | h
      · omega
      · have hgm : (bins.map HistogramBin.stop).getD
            (upperBoundIdx (bins.map HistogramBin.stop) v - 1) 0 =
            eAt bins (bins.length - 1) := by
          rw [hEq, hlenL]
          exact getD_map_stop bins (bins.length - 1) (by omega)
        rw [hgm, hlast] at h
        exact hmax (le_antisymm hhi h)
    have hjlt : upperBoundIdx (bins.map HistogramBin.stop) v < bins.length := by
      omega
    have hvend : v < eAt bins (upperBoundIdx (bins.map HistogramBin.stop) v) := by
      rcases hub_r with h | h
      · exact absurd h hjne
      · rwa [getD_map_stop bins _ hjlt] at h
    have hvstart : sAt bins (upperBoundIdx (bins.map HistogramBin.stop) v) ≤ v := by
      rcases Nat.eq_zero_or_pos (upperBoundIdx (bins.map HistogramBin.stop) v)
        with hj0 | hjpos
      · rw [hj0, hhead]; exact hlo
      · rcases hub_l with h | h
        · omega
        · rw [getD_map_stop bins _ (by omega)] at h
          have hch := hcont (upperBoundIdx (bins.map HistogramBin.stop) v - 1) (by omega)
          rw [Nat.sub_add_cancel hjpos] at hch
          rw [hch] at h
          exact h
    have hacc : accepts tmax
        (bins.getD (upperBoundIdx (bins.map HistogramBin.stop) v) defaultBin) v = true := by
      simp only [accepts, decide_eq_true_eq]
      exact ⟨hvstart, Or.inl hvend⟩
    refine ⟨upperBoundIdx (bins.map HistogramBin.stop) v, ?_, hjlt,
      fun _ => ⟨hvstart, hvend⟩⟩
    simp only [findBinIdx, if_neg hmax]
    rw [if_pos hjlt, if_pos hacc]

/-! ### Indexed access lemmas for cons and append -/

theorem sAt_append_left (l l' : List HistogramBin) (i : Nat) (h : i < l.length) :
    sAt (l ++ l') i = sAt l i := by
  unfold sAt; rw [List.getD_append _ _ _ _ h]

theorem eAt_append_left (l l' : List HistogramBin) (i : Nat) (h : i < l.length) :
    eAt (l ++ l') i = eAt l i := by
  unfold eAt; rw [List.getD_append _ _ _ _ h]

theorem sAt_append_right (l l' : List HistogramBin) (i : Nat) (h : l.length ≤ i) :
    sAt (l ++ l') i = sAt l' (i - l.length) := by
  unfold sAt; rw [List.getD_append_right _ _ _ _ h]

theorem eAt_append_right (l l' : List HistogramBin) (i : Nat) (h : l.length ≤ i) :
    eAt (l ++ l') i = eAt l' (i - l.length) := by
  unfold eAt; rw [List.getD_append_right _ _ _ _ h]

theorem eAt_cons_last (x : HistogramBin) {l : List HistogramBin} (h : l ≠ []) :
    eAt (x :: l) ((x :: l).length - 1) = eAt l (l.length - 1) := by
  have hlen : 0 < l.length := List.length_pos.mpr h
  have heq : (x :: l).length - 1 = (l.length - 1) + 1 := by
    simp only [List.length_cons]; omega
  rw [heq]; rfl

/-! ### Invariant preservation through padding -/

theorem contiguous_cons {x : HistogramBin} {l : List HistogramBin}
    (hx : x.stop = sAt l 0) (hc : contiguous l) : contiguous (x :: l) := by
  intro i hi
  have hi' : i < l.length := by simpa using hi
  cases i with
  | zero => exact hx
  | succ j =>
    have hj : j < l.length - 1 := by omega
    exact hc j hj

theorem binsWF_cons {x : HistogramBin} {l : List HistogramBin}
    (hx : x.start ≤ x.stop) (h : binsWF l) : binsWF (x :: l) := by
  intro i hi
  cases i with
  | zero => exact hx
  | succ j => exact h j (by simpa using hi)

theorem contiguous_append_single {l : List HistogramBin} {y : HistogramBin}
    (hne : l ≠ []) (hc : contiguous l) (hy : eAt l (l.length - 1) = y.start) :
    contiguous (l ++ [y]) := by
  have hlen : 0 < l.length := List.length_pos.mpr hne
  intro i hi
  have hi' : i < l.length := by simpa using hi
  rcases Nat.lt_or_ge i (l.length - 1) with h | h
  · have h1 : i + 1 < l.length := by omega
    rw [eAt_append_left _ _ _ hi', sAt_append_left _ _ _ h1]
    exact hc i h
  · have hieq : i = l.length - 1 := by omega
    subst hieq
    rw [eAt_append_left _ _ _ hi']
    have hs : sAt (l ++ [y]) (l.length - 1 + 1) = y.start := by
      rw [Nat.sub_add_cancel hlen, sAt_append_right _ _ _ (Nat.le_refl _)]
      simp [sAt]
    rw [hs]; exact hy

theorem binsWF_append_single {l : List HistogramBin} {y : HistogramBin}
    (h : binsWF l) (hy : y.start ≤ y.stop) : binsWF (l ++ [y]) := by
  intro i hi
  rcases Nat.lt_or_ge i l.length with h1 | h1
  · rw [sAt_append_left _ _ _ h1, eAt_append_left _ _ _ h1]; exact h i h1
  · have hieq : i = l.length := by
      simp only [List.length_append, List.length_cons, List.length_nil] at hi
      omega
    subst hieq
    rw [sAt_append_right _ _ _ (Nat.le_refl _), eAt_append_right _ _ _ (Nat.le_refl _)]
    simpa [sAt, eAt] using hy

theorem padLow_spec (tmin : Int) (b : HistogramBin) (bs : List HistogramBin)
    (hcont : contiguous (b :: bs)) (hwf : binsWF (b :: bs))
    (hlo : tmin ≤ sAt (b :: bs) 0) :
    padLow tmin (b :: bs) ≠ [] ∧ contiguous (padLow tmin (b :: bs)) ∧
    binsWF (padLow tmin (b :: bs)) ∧ sAt (padLow tmin (b :: bs)) 0 = tmin ∧
    eAt (padLow tmin (b :: bs)) ((padLow tmin (b :: bs)).length - 1) =
      eAt (b :: bs) ((b :: bs).length - 1) := by
  simp only [padLow]
  by_cases hb : tmin < b.start
  · rw [if_pos hb]
    refine ⟨List.cons_ne_nil _ _, ?_, ?_, rfl, eAt_cons_last _ (List.cons_ne_nil _ _)⟩
    · exact contiguous_cons rfl hcont
    · exact binsWF_cons (le_of_lt hb) hwf
  · rw [if_neg hb]
    have hbeq : sAt (b :: bs) 0 = tmin := le_antisymm (le_of_not_lt hb) hlo
    exact ⟨List.cons_ne_nil _ _, hcont, hwf, hbeq, rfl⟩

theorem padHigh_spec (tmax : Int) (l : List HistogramBin) (hne : l ≠ [])
    (hcont : contiguous l) (hwf : binsWF l)
    (hhi : eAt l (l.length - 1) ≤ tmax) :
    padHigh tmax l ≠ [] ∧ contiguous (padHigh tmax l) ∧ binsWF (padHigh tmax l) ∧
    sAt (padHigh tmax l) 0 = sAt l 0 ∧
    eAt (padHigh tmax l) ((padHigh tmax l).length - 1) = tmax := by
  have hlen : 0 < l.length := List.length_pos.mpr hne
  unfold padHigh
  by_cases hc : eAt l (l.length - 1) < tmax
  · rw [if_pos hc]
    refine ⟨?_, ?_, ?_, sAt_append_left _ _ _ hlen, ?_⟩
    · simp
    · exact contiguous_append_single hne hcont rfl
    · exact binsWF_append_single hwf (le_of_lt hc)
    · have hl : (l ++ [(⟨eAt l (l.length - 1), tmax, 0⟩ : HistogramBin)]).length - 1 =
          l.length := by simp
      rw [hl, eAt_append_right _ _ _ (Nat.le_refl _)]
      simp [eAt]
  · rw [if_neg hc]
    exact ⟨hne, hcont, hwf, rfl, le_antisymm hhi (le_of_not_lt hc)⟩

/-- Construction-time invariant: if the generator produced a nonempty,
contiguous sequence of well-formed bins whose first start and last end are
inside the domain, then the padded sequence satisfies the full histogram
invariant. -/
theorem padBins_good (tmin tmax : Int) (gen : List HistogramBin) (hne : gen ≠ [])
    (hcont : contiguous gen) (hwf : binsWF gen)
    (hlo : tmin ≤ sAt gen 0) (hhi : eAt gen (gen.length - 1) ≤ tmax) :
    goodBins tmin tmax (padBins tmin tmax gen) ∧ binsWF (padBins tmin tmax gen) := by
  match gen, hne with
  | b :: bs, _ =>
    obtain ⟨h1, h2, h3, h4, h5⟩ := padLow_spec tmin b bs hcont hwf hlo
    obtain ⟨g1, g2, g3, g4, g5⟩ := padHigh_spec tmax (padLow tmin (b :: bs)) h1 h2 h3
      (by rw [h5]; exact hhi)
    have hpb : padBins tmin tmax (b :: bs) = padHigh tmax (padLow tmin (b :: bs)) := rfl
    rw [hpb]
    exact ⟨⟨g1, g2, by rw [g4]; exact h4, g5⟩, g3⟩

/-- Contiguity plus interval well-formedness gives ascending starts. -/
theorem sortedStarts_of (bins : List HistogramBin) (hcont : contiguous bins)
    (hwf : binsWF bins) : sortedStarts bins := by
  intro i hi
  have h1 : sAt bins i ≤ eAt bins i := hwf i (by omega)
  have h2 : eAt bins i = sAt bins (i + 1) := hcont i hi
  omega

/-- Contiguity plus interval well-formedness makes the end boundaries
monotone. -/
theorem eAt_mono (bins : List HistogramBin) (hcont : contiguous bins)
    (hwf : binsWF bins) :
    ∀ i k, i ≤ k → k < bins.length → eAt bins i ≤ eAt bins k := by
  intro i k
  induction k with
  | zero => intro h _; interval_cases i; exact le_refl _
  | succ m ih =>
    intro hik hk
    rcases Nat.lt_or_ge i (m + 1) with h | h
    · have h1 : eAt bins i ≤ eAt bins m := ih (by omega) (by omega)
      have h2 : eAt bins m = sAt bins (m + 1) := hcont m (by omega)
      have h3 : sAt bins (m + 1) ≤ eAt bins (m + 1) := hwf (m + 1) hk
      omega
    · have hieq : i = m + 1 := by omega
      subst hieq; exact le_refl _

/-! ### `add` and `reset` only touch counters -/

theorem length_modifyCount (bins : List HistogramBin) :
    ∀ j c, (modifyCount bins j c).length = bins.length := by
  induction bins with
  | nil => intro j c; rfl
  | cons b bs ih =>
    intro j c
    cases j with
    | zero => rfl
    | succ m => simpa [modifyCount] using ih m c

theorem getD_modifyCount_start (bins : List HistogramBin) :
    ∀ j c i, ((modifyCount bins j c).getD i defaultBin).start =
      (bins.getD i defaultBin).start := by
  induction bins with
  | nil => intro j c i; rfl
  | cons b bs ih =>
    intro j c i
    cases j with
    | zero => cases i <;> rfl
    | succ m =>
      cases i with
      | zero => rfl
      | succ n => simpa [modifyCount] using ih m c n

theorem getD_modifyCount_stop (bins : List HistogramBin) :
    ∀ j c i, ((modifyCount bins j c).getD i defaultBin).stop =
      (bins.getD i defaultBin).stop := by
  induction bins with
  | nil => intro j c i; rfl
  | cons b bs ih =>
    intro j c i
    cases j with
    | zero => cases i <;> rfl
    | succ m =>
      cases i with
      | zero => rfl
      | succ n => simpa [modifyCount] using ih m c n

theorem mapStop_modifyCount (bins : List HistogramBin) :
    ∀ j c, (modifyCount bins j c).map HistogramBin.stop =
      bins.map HistogramBin.stop := by
  induction bins with
  | nil => intro j c; rfl
  | cons b bs ih =>
    intro j c
    cases j with
    | zero => rfl
    | succ m => simpa [modifyCount] using ih m c

theorem cAt_modifyCount_self (bins : List HistogramBin) :
    ∀ j c, j < bins.length → cAt (modifyCount bins j c) j = cAt bins j + c := by
  induction bins with
  | nil => intro j c h; simp at h
  | cons b bs ih =>
    intro j c h
    cases j with
    | zero => rfl
    | succ m => simpa [modifyCount, cAt] using ih m c (by simpa using h)

theorem length_resetBins (bins : List HistogramBin) :
    (resetBins bins).length = bins.length := List.length_map _ _

theorem getD_resetBins_start (bins : List HistogramBin) :
    ∀ i, ((resetBins bins).getD i defaultBin).start = (bins.getD i defaultBin).start := by
  induction bins with
  | nil => intro i; rfl
  | cons b bs ih =>
    intro i
    cases i with
    | zero => rfl
    | succ n => simpa [resetBins] using ih n

theorem getD_resetBins_stop (bins : List HistogramBin) :
    ∀ i, ((resetBins bins).getD i defaultBin).stop = (bins.getD i defaultBin).stop := by
  induction bins with
  | nil => intro i; rfl
  | cons b bs ih =>
    intro i
    cases i with
    | zero => rfl
    | succ n => simpa [resetBins] using ih n

theorem mapStop_resetBins (bins : List HistogramBin) :
    (resetBins bins).map HistogramBin.stop = bins.map HistogramBin.stop := by
  induction bins with
  | nil => rfl
  | cons b bs ih => simp [resetBins, ih]

/-- `findBin` only looks at boundaries, so it is invariant under counter
changes. -/
theorem findBinIdx_congr (tmax : Int) (a b : List HistogramBin)
    (hlen : a.length = b.length)
    (hmap : a.map HistogramBin.stop = b.map HistogramBin.stop)
    (hs : ∀ i, (a.getD i defaultBin).start = (b.getD i defaultBin).start)
    (he : ∀ i, (a.getD i defaultBin).stop = (b.getD i defaultBin).stop)
    (v : Int) : findBinIdx tmax a v = findBinIdx tmax b v := by
  have hemp : a.isEmpty = b.isEmpty := by
    cases a <;> cases b <;> simp_all
  by_cases hv : v = tmax
  · simp [findBinIdx, hv, hemp, hlen]
  · have hacc : ∀ j, accepts tmax (a.getD j defaultBin) v =
        accepts tmax (b.getD j defaultBin) v := by
      intro j
      simp only [accepts, hs j, he j]
    simp only [findBinIdx, if_neg hv, hmap, hlen, hacc]

theorem findBinIdx_modifyCount (tmax : Int) (bins : List HistogramBin) (j c : Nat)
    (v : Int) : findBinIdx tmax (modifyCount bins j c) v = findBinIdx tmax bins v :=
  findBinIdx_congr tmax _ bins (length_modifyCount bins j c)
    (mapStop_modifyCount bins j c) (getD_modifyCount_start bins j c)
    (getD_modifyCount_stop bins j c) v

theorem goodBins_modifyCount (tmin tmax : Int) (bins : List HistogramBin) (j c : Nat)
    (hg : goodBins tmin tmax bins) : goodBins tmin tmax (modifyCount bins j c) := by
  obtain ⟨hne, hcont, hhead, hlast⟩ := hg
  refine ⟨?_, ?_, ?_, ?_⟩
  · intro h
    have := congrArg List.length h
    rw [length_modifyCount] at this
    exact hne (List.length_eq_zero.mp (by simpa using this))
  · intro i hi
    rw [length_modifyCount] at hi
    show eAt _ i = sAt _ (i + 1)
    unfold eAt sAt
    rw [getD_modifyCount_stop, getD_modifyCount_start]
    exact hcont i hi
  · show sAt _ 0 = tmin
    unfold sAt
    rw [getD_modifyCount_start]
    exact hhead
  · show eAt _ _ = tmax
    unfold eAt
    rw [length_modifyCount, getD_modifyCount_stop]
    exact hlast

theorem binsWF_modifyCount (bins : List HistogramBin) (j c : Nat)
    (hw : binsWF bins) : binsWF (modifyCount bins j c) := by
  intro i hi
  rw [length_modifyCount] at hi
  show sAt _ i ≤ eAt _ i
  unfold sAt eAt
  rw [getD_modifyCount_start, getD_modifyCount_stop]
  exact hw i hi

theorem goodBins_resetBins (tmin tmax : Int) (bins : List HistogramBin)
    (hg : goodBins tmin tmax bins) : goodBins tmin tmax (resetBins bins) := by
  obtain ⟨hne, hcont, hhead, hlast⟩ := hg
  refine ⟨?_, ?_, ?_, ?_⟩
  · intro h
    have := congrArg List.length h
    rw [length_resetBins] at this
    exact hne (List.length_eq_zero.mp (by simpa using this))
  · intro i hi
    rw [length_resetBins] at hi
    show eAt _ i = sAt _ (i + 1)
    unfold eAt sAt
    rw [getD_resetBins_stop, getD_resetBins_start]
    exact hcont i hi
  · show sAt _ 0 = tmin
    unfold sAt
    rw [getD_resetBins_start]
    exact hhead
  · show eAt _ _ = tmax
    unfold eAt
    rw [length_resetBins, getD_resetBins_stop]
    exact hlast

theorem binsWF_resetBins (bins : List HistogramBin) (hw : binsWF bins) :
    binsWF (resetBins bins) := by
  intro i hi
  rw [length_resetBins] at hi
  show sAt _ i ≤ eAt _ i
  unfold sAt eAt
  rw [getD_resetBins_start, getD_resetBins_stop]
  exact hw i hi

/-- Any sequence of in-range `add`/`reset` operations on an
invariant-satisfying histogram succeeds (no `add` ever misses) and
preserves the invariants. -/
theorem applyOps_good (tmin tmax : Int) (ops : List HOp) :
    ∀ bins, goodBins tmin tmax bins → binsWF bins →
      (∀ op ∈ ops, opInRange tmin tmax op) →
      ∃ bins', applyOps tmax bins ops = some bins' ∧
        goodBins tmin tmax bins' ∧ binsWF bins' ∧ sortedStarts bins' := by
  induction ops with
  | nil =>
    intro bins hg hw _
    exact ⟨bins, rfl, hg, hw, sortedStarts_of bins hg.2.1 hw⟩
  | cons op rest ih =>
    intro bins hg hw hops
    cases op with
    | addOp v c =>
      obtain ⟨hv1, hv2⟩ := hops _ (List.mem_cons_self _ _)
      obtain ⟨j, hj, hjlt, _⟩ := findBinIdx_good tmin tmax bins hg v hv1 hv2
      have hstep : applyOps tmax bins (HOp.addOp v c :: rest) =
          applyOps tmax (modifyCount bins j c) rest := by
        simp [applyOps, applyOp, add, hj]
      obtain ⟨bins', h1, h2, h3, h4⟩ := ih (modifyCount bins j c)
        (goodBins_modifyCount tmin tmax bins j c hg)
        (binsWF_modifyCount bins j c hw)
        (fun o ho => hops o (List.mem_cons_of_mem _ ho))
      exact ⟨bins', by rw [hstep]; exact h1, h2, h3, h4⟩
    | resetOp =>
      have hstep : applyOps tmax bins (HOp.resetOp :: rest) =
          applyOps tmax (resetBins bins) rest := by
        simp [applyOps, applyOp]
      obtain ⟨bins', h1, h2, h3, h4⟩ := ih (resetBins bins)
        (goodBins_resetBins tmin tmax bins hg)
        (binsWF_resetBins bins hw)
        (fun o ho => hops o (List.mem_cons_of_mem _ ho))
      exact ⟨bins', by rw [hstep]; exact h1, h2, h3, h4⟩

/-! ### Linear first-match search (the specification-side description of
the upper-bound lookup) -/

/-- Index of the first bin whose end boundary strictly exceeds `v`
(spec: "the first bucket whose `end` exceeds `value`"). -/
def firstExceeding (v : Int) : List HistogramBin → Option Nat
  | [] => none
  | b :: bs => if v < b.stop then some 0 else (firstExceeding v bs).map (· + 1)

theorem firstExceeding_none_iff (v : Int) (bins : List HistogramBin) :
    firstExceeding v bins = none ↔ ∀ i < bins.length, ¬ v < eAt bins i := by
  induction bins with
  | nil => simp [firstExceeding]
  | cons b bs ih =>
    by_cases hb : v < b.stop
    · simp only [firstExceeding, if_pos hb]
      constructor
      · intro h; exact absurd h (by simp)
      · intro h; exact absurd hb (h 0 (by simp))
    · simp only [firstExceeding, if_neg hb]
      constructor
      · intro h i hi
        have h' : firstExceeding v bs = none := by
          cases hfe : firstExceeding v bs with
          | none => rfl
          | some a => rw [hfe] at h; simp at h
        cases i with
        | zero => exact hb
        | succ m => exact (ih.mp h') m (by simpa using hi)
      · intro h
        have h' : ∀ i < bs.length, ¬ v < eAt bs i :=
          fun i hi => h (i + 1) (by simpa using hi)
        rw [ih.mpr h']; rfl

theorem firstExceeding_some_iff (v : Int) (bins : List HistogramBin) :
    ∀ k, firstExceeding v bins = some k ↔
      k < bins.length ∧ v < eAt bins k ∧ ∀ i < k, ¬ v < eAt bins i := by
  induction bins with
  | nil => intro k; simp [firstExceeding]
  | cons b bs ih =>
    intro k
    by_cases hb : v < b.stop
    · simp only [firstExceeding, if_pos hb]
      constructor
      · intro h
        have hk : k = 0 := by simpa using h.symm
        subst hk
        exact ⟨by simp, hb, by omega⟩
      · intro ⟨h1, h2, h3⟩
        cases k with
        | zero => rfl
        | succ m => exact absurd hb (h3 0 (by omega))
    · simp only [firstExceeding, if_neg hb]
      cases k with
      | zero =>
        constructor
        · intro h
          cases hfe : firstExceeding v bs with
          | none => rw [hfe] at h; simp at h
          | some a => rw [hfe] at h; simp at h
        · intro ⟨h1, h2, _⟩
          exact absurd h2 hb
      | succ m =>
        constructor
        · intro h
          have h' : firstExceeding v bs = some m := by
            cases hfe : firstExceeding v bs with
            | none => rw [hfe] at h; simp at h
            | some a =>
              rw [hfe] at h
              simp only [Option.map_some'] at h
              have : a = m := by simpa using h
              rw [← this]
          obtain ⟨h1, h2, h3⟩ := (ih m).mp h'
          refine ⟨by simpa using h1, h2, ?_⟩
          intro i hi
          cases i with
          | zero => exact hb
          | succ n => exact h3 n (by omega)
        · intro ⟨h1, h2, h3⟩
          have h' : firstExceeding v bs = some m :=
            (ih m).mpr ⟨by simpa using h1, h2,
              fun n hn => h3 (n + 1) (by omega)⟩
          rw [h']; rfl

/-! ### Counting -/

theorem toSizeT_natCast (n : Nat) (h : n < 2 ^ 64) : toSizeT (n : Int) = n := by
  unfold toSizeT
  rw [Int.emod_eq_of_lt (Int.natCast_nonneg n) (by exact_mod_cast h)]
  exact Int.toNat_natCast n

/-- While the running sum stays below `INT_MAX`, the `int` accumulator of
`total` behaves like exact addition. -/
theorem totalStep_small (acc : Nat) (b : HistogramBin)
    (h : acc + b.count < 2 ^ 31) :
    totalStep (acc : Int) b = ((acc + b.count : Nat) : Int) := by
  unfold totalStep
  rw [toSizeT_natCast acc (by omega)]
  have h64 : (acc + b.count) % 2 ^ 64 = acc + b.count :=
    Nat.mod_eq_of_lt (by omega)
  rw [h64]
  unfold toInt32
  have h32 : (acc + b.count) % 2 ^ 32 = acc + b.count :=
    Nat.mod_eq_of_lt (by omega)
  rw [if_pos (by omega), h32]

theorem foldl_totalStep (bins : List HistogramBin) :
    ∀ acc : Nat, acc + (bins.map HistogramBin.count).sum < 2 ^ 31 →
      bins.foldl totalStep (acc : Int) =
        ((acc + (bins.map HistogramBin.count).sum : Nat) : Int) := by
  induction bins with
  | nil => intro acc _; simp
  | cons b bs ih =>
    intro acc h
    simp only [List.map_cons, List.sum_cons] at h
    have hstep : totalStep (acc : Int) b = ((acc + b.count : Nat) : Int) :=
      totalStep_small acc b (by omega)
    have hrec := ih (acc + b.count) (by omega)
    simp only [List.foldl_cons, List.map_cons, List.sum_cons, hstep, hrec]
    congr 1
    omega

/-- As long as the counters sum to less than `INT_MAX`, `total()` returns
the exact sum. -/
theorem total_eq_sum (bins : List HistogramBin)
    (h : (bins.map HistogramBin.count).sum < 2 ^ 31) :
    total bins = (bins.map HistogramBin.count).sum := by
  unfold total
  have h0 := foldl_totalStep bins 0 (by omega)
  simp only [Nat.cast_zero, Nat.zero_add, zero_add] at h0
  rw [h0]
  exact toSizeT_natCast _ (by omega)

theorem sum_map_count_modifyCount (bins : List HistogramBin) :
    ∀ j c, j < bins.length →
      ((modifyCount bins j c).map HistogramBin.count).sum =
        (bins.map HistogramBin.count).sum + c := by
  induction bins with
  | nil => intro j c h; simp at h
  | cons b bs ih =>
    intro j c h
    cases j with
    | zero =>
      simp only [modifyCount, List.map_cons, List.sum_cons]
      omega
    | succ m =>
      simp only [modifyCount, List.map_cons, List.sum_cons,
        ih m c (by simpa using h)]
      omega


/-! ### Truncating casts of exact rationals -/

theorem truncQ_natCast (n : ℕ) : truncQ (n : ℚ) = n := by
  have h : ¬ ((n : ℚ) < 0) := not_lt.mpr (Nat.cast_nonneg n)
  simp [truncQ, h, Rat.num_natCast, Rat.den_natCast]

theorem truncQ_intCast (n : ℤ) : truncQ (n : ℚ) = n := by
  rcases le_or_lt 0 n with h | h
  · have h2 : ¬ ((n : ℚ) < 0) := not_lt.mpr (by exact_mod_cast h)
    simp only [truncQ, if_neg h2, Rat.num_intCast, Rat.den_intCast, Nat.div_one]
    show ((n.natAbs : ℤ)) = n
    exact Int.natAbs_of_nonneg h
  · have h2 : (n : ℚ) < 0 := by exact_mod_cast h
    simp only [truncQ, if_pos h2, Rat.num_intCast, Rat.den_intCast, Nat.div_one]
    show -((n.natAbs : ℤ)) = n
    have h3 : ((n.natAbs : ℤ)) = -n := by
      rw [← Int.natAbs_neg]
      exact Int.natAbs_of_nonneg (by omega)
    rw [h3, neg_neg]

theorem truncQ_pow_natCast (b m : ℕ) : truncQ ((b : ℚ) ^ m) = (b : ℤ) ^ m := by
  have h : ((b : ℚ)) ^ m = ((b ^ m : ℕ) : ℚ) := by push_cast; ring
  rw [h, truncQ_natCast]
  push_cast; ring

/-! ### Growing-width generator laws -/

theorem gwState_growth (st : GrowingWidthGenerator) :
    ∀ k, (gwState st k).growth = st.growth := by
  intro k
  induction k with
  | zero => rfl
  | succ m ih => simpa [gwState, gwNext] using ih

theorem gwState_width (st : GrowingWidthGenerator) :
    ∀ k, (gwState st k).width = st.width * st.growth ^ k := by
  intro k
  induction k with
  | zero => simp [gwState]
  | succ m ih =>
    have hstep : (gwState st (m + 1)).width =
        (gwState st m).width * (gwState st m).growth := rfl
    rw [hstep, ih, gwState_growth st m, pow_succ]
    ring

theorem gwBucket_eq (st : GrowingWidthGenerator) (k : Nat) :
    gwBucket st k = ⟨(gwState st k).start,
      (gwState st k).start + truncQ (st.width * st.growth ^ k), 0⟩ := by
  have h : gwBucket st k = ⟨(gwState st k).start,
      (gwState st k).start + truncQ ((gwState st k).width), 0⟩ := rfl
  rw [h, gwState_width st k]

theorem gwState_start_succ (st : GrowingWidthGenerator) (k : Nat) :
    (gwState st (k + 1)).start = (gwBucket st k).stop := rfl

theorem gwCursor_one (st : GrowingWidthGenerator) (h : st.growth = 1) :
    ∀ k, (gwState st k).start = st.start + (k : ℤ) * truncQ st.width := by
  intro k
  induction k with
  | zero => simp [gwState]
  | succ m ih =>
    have hw : (gwState st m).width = st.width := by
      rw [gwState_width st m, h, one_pow, mul_one]
    have hstep : (gwState st (m + 1)).start =
        (gwState st m).start + truncQ ((gwState st m).width) := rfl
    rw [hstep, hw, ih]
    push_cast; ring

/-! ### Fixed-input generator run -/

/-- The bins a fixed-input generator over `s` produces in its first `k`
(successful) invocations: `[s[i], s[i+1])` for `i = 0, …, k-1`. -/
def binsOfSeq (s : List Int) (k : Nat) : List HistogramBin :=
  (List.range k).map (fun i => ⟨s.getD i 0, s.getD (i + 1) 0, 0⟩)

theorem fixedRun_eq (s : List Int) :
    ∀ k, k + 1 ≤ s.length → fixedRun s k = some (binsOfSeq s k, ⟨s, k⟩) := by
  intro k
  induction k with
  | zero => intro h; simp [fixedRun, binsOfSeq]
  | succ m ih =>
    intro h
    have hrun := ih (by omega)
    have hnext : fixedNext ⟨s, m⟩ =
        some (⟨s.getD m 0, s.getD (m + 1) 0, 0⟩, ⟨s, m + 1⟩) := by
      simp only [fixedNext]
      rw [if_neg (by simp; omega)]
    simp [fixedRun, hrun, hnext, binsOfSeq, List.range_succ]

/-! ### Exponential generator laws -/

theorem expState_eq (g : ExponentialGenerator) :
    ∀ k, expState g k = ⟨g.start + k, g.power⟩ := by
  intro k
  induction k with
  | zero => simp [expState]
  | succ m ih =>
    have hstep : expState g (m + 1) = (expNext (expState g m)).2 := rfl
    rw [hstep, ih]
    simp [expNext]
    omega

theorem expBucket_pow (b i0 : ℕ) (k : Nat) :
    expBucket ⟨i0, (b : ℚ)⟩ k = ⟨(b : ℤ) ^ (i0 + k), (b : ℤ) ^ (i0 + k + 1), 0⟩ := by
  have h : expBucket ⟨i0, (b : ℚ)⟩ k =
      ⟨truncQ ((b : ℚ) ^ (i0 + k)), truncQ ((b : ℚ) ^ (i0 + k + 1)), 0⟩ := by
    unfold expBucket
    rw [expState_eq]
    rfl
  rw [h, truncQ_pow_natCast, truncQ_pow_natCast]

/-- Modelled from the claim's words (C3, for comparison with the source's
`accepts`): true iff `start ≤ v < end`, or `v` is the domain maximum and
this is the terminal bucket of its histogram. -/
def claimAccepts (tmax : Int) (isTerminal : Bool) (b : HistogramBin) (v : Int) : Bool :=
  decide ((b.start ≤ v ∧ v < b.stop) ∨ (v = tmax ∧ isTerminal = true))

/-! ## Claim theorems -/

/-- C1 (counterexample): the claim quantifies over *every* generator, but
the code builds a usable histogram even from a descending fixed-input
sequence.  `FixedInputGenerator` over `[5, 3]` invoked once yields the bin
`[5, 3)`; construction (for an unsigned 32-bit `T`) pads it to
`[0,5), [5,3), [3,max)`, whose starts `0, 5, 3` are not sorted ascending,
yet `verify`'s failure is discarded and the histogram is produced. -/
theorem C1_counterexample :
    fixedRun [5, 3] 1 = some ([⟨5, 3, 0⟩], ⟨[5, 3], 1⟩) ∧
    histBuild 0 4294967295 [⟨5, 3, 0⟩] =
      [⟨0, 5, 0⟩, ⟨5, 3, 0⟩, ⟨3, 4294967295, 0⟩] ∧
    ¬ sortedStarts (histBuild 0 4294967295 [⟨5, 3, 0⟩]) := by
  decide

/-- C1 (amended): for every generator whose produced bin sequence is
nonempty, contiguous and interval-well-formed, with boundaries inside the
representable domain, the constructed histogram has sorted ascending
starts, is contiguous, starts at the domain minimum and ends at the domain
maximum — and these invariants still hold after any sequence of in-range
`add` and `reset` calls (all of which succeed). -/
theorem C1_histogram_invariants (tmin tmax : Int) (gen : List HistogramBin)
    (hne : gen ≠ []) (hcont : contiguous gen) (hwf : binsWF gen)
    (hlo : tmin ≤ sAt gen 0) (hhi : eAt gen (gen.length - 1) ≤ tmax)
    (ops : List HOp) (hops : ∀ op ∈ ops, opInRange tmin tmax op) :
    ∃ bins', applyOps tmax (histBuild tmin tmax gen) ops = some bins' ∧
      sortedStarts bins' ∧ contiguous bins' ∧
      sAt bins' 0 = tmin ∧ eAt bins' (bins'.length - 1) = tmax := by
  have hpad := padBins_good tmin tmax gen hne hcont hwf hlo hhi
  have hbuild : histBuild tmin tmax gen = padBins tmin tmax gen := rfl
  obtain ⟨bins', h1, h2, h3, h4⟩ :=
    applyOps_good tmin tmax ops (padBins tmin tmax gen) hpad.1 hpad.2 hops
  exact ⟨bins', by rw [hbuild]; exact h1, h4, h2.2.1, h2.2.2.1, h2.2.2.2⟩

theorem C1_histogram_invariants_witness :
    ∃ bins', applyOps 4294967295 (histBuild 0 4294967295 [⟨0, 5, 0⟩])
        [HOp.addOp 3 1, HOp.resetOp] = some bins' ∧
      sortedStarts bins' ∧ contiguous bins' ∧
      sAt bins' 0 = 0 ∧ eAt bins' (bins'.length - 1) = 4294967295 :=
  C1_histogram_invariants 0 4294967295 [⟨0, 5, 0⟩] (by decide) (by decide)
    (by decide) (by decide) (by decide) [HOp.addOp 3 1, HOp.resetOp] (by decide)

/-- C4 (code bug): `Histogram::fill` computes `verify()` but discards its
result.  The generated sequence `[0,5), [7,9)` (a gap at `[5,7)`) makes
`verify` return `false`, yet construction still yields the padded
three-bin histogram and `add` happily uses it — the claim (and the spec)
require construction to fail instead. -/
theorem C4_verify_result_discarded :
    verify 0 4294967295 (padBins 0 4294967295 [⟨0, 5, 0⟩, ⟨7, 9, 0⟩]) = false ∧
    histBuild 0 4294967295 [⟨0, 5, 0⟩, ⟨7, 9, 0⟩] =
      [⟨0, 5, 0⟩, ⟨7, 9, 0⟩, ⟨9, 4294967295, 0⟩] ∧
    add 4294967295 (histBuild 0 4294967295 [⟨0, 5, 0⟩, ⟨7, 9, 0⟩]) 3 1 =
      some [⟨0, 5, 1⟩, ⟨7, 9, 0⟩, ⟨9, 4294967295, 0⟩] := by
  decide

/-- C5: on a histogram satisfying the contiguity and full-coverage
invariant, `findBin` never returns not-found for any representable value,
so `add` (which dereferences the result without a null check) always
performs the increment.  Remarkably this holds with no sortedness
hypothesis: the binary search always lands on an accepting bin. -/
theorem C5_add_never_misses (tmin tmax : Int) (bins : List HistogramBin)
    (hg : goodBins tmin tmax bins) (v : Int) (hlo : tmin ≤ v) (hhi : v ≤ tmax)
    (c : Nat) :
    ∃ j, findBinIdx tmax bins v = some j ∧
      add tmax bins v c = some (modifyCount bins j c) ∧
      cAt (modifyCount bins j c) j = cAt bins j + c := by
  obtain ⟨j, hj, hjlt, _⟩ := findBinIdx_good tmin tmax bins hg v hlo hhi
  exact ⟨j, hj, by simp [add, hj], cAt_modifyCount_self bins j c hjlt⟩

theorem C5_add_never_misses_witness :
    ∃ j, findBinIdx 4294967295 [⟨0, 5, 0⟩, ⟨5, 4294967295, 0⟩] 3 = some j ∧
      add 4294967295 [⟨0, 5, 0⟩, ⟨5, 4294967295, 0⟩] 3 1 =
        some (modifyCount [⟨0, 5, 0⟩, ⟨5, 4294967295, 0⟩] j 1) ∧
      cAt (modifyCount [⟨0, 5, 0⟩, ⟨5, 4294967295, 0⟩] j 1) j =
        cAt [⟨0, 5, 0⟩, ⟨5, 4294967295, 0⟩] j + 1 :=
  C5_add_never_misses 0 4294967295 [⟨0, 5, 0⟩, ⟨5, 4294967295, 0⟩] (by decide)
    3 (by decide) (by decide) 1

/-- C6: the fixed-input generator over an ascending sequence `s` of length
`m` returns `[s[k], s[k+1])` on its `k`-th (0-based) invocation for every
`k < m - 1`, and fails with the overflow condition (`none`, modelling the
thrown `overflow_error`) whenever fewer than two boundary values remain
(`k + 1 ≥ m`); the state after `k` successful calls is position `k`. -/
theorem C6_fixed_input_generator (s : List Int) (k : Nat) :
    (k + 1 < s.length →
      fixedNext ⟨s, k⟩ = some (⟨s.getD k 0, s.getD (k + 1) 0, 0⟩, ⟨s, k + 1⟩)) ∧
    (s.length ≤ k + 1 → fixedNext ⟨s, k⟩ = none) ∧
    (k + 1 ≤ s.length → fixedRun s k = some (binsOfSeq s k, ⟨s, k⟩)) := by
  refine ⟨?_, ?_, fixedRun_eq s k⟩
  · intro h
    simp only [fixedNext]
    rw [if_neg (by simp; omega)]
  · intro h
    simp only [fixedNext]
    rw [if_pos (by simp; omega)]

theorem C6_fixed_input_generator_witness :
    fixedRun [0, 5, 15] 2 = some ([⟨0, 5, 0⟩, ⟨5, 15, 0⟩], ⟨[0, 5, 15], 2⟩) ∧
    fixedNext ⟨[0, 5, 15], 2⟩ = none := by
  constructor
  · have h := (C6_fixed_input_generator [0, 5, 15] 2).2.2 (by decide)
    rw [h]; decide
  · exact (C6_fixed_input_generator [0, 5, 15] 2).2.1 (by decide)

/-- C2: on a histogram satisfying its invariants (nonempty, contiguous,
well-formed bins — which make the end boundaries monotone), `findBin`
returns the last bin directly when `v` is the domain maximum; otherwise it
returns the first bin in ascending order whose end strictly exceeds `v`
provided that bin accepts `v`, and returns not-found exactly when no bin's
end exceeds `v` or the located bin fails `accepts`. -/
theorem C2_findBin_upper_bound (tmax : Int) (bins : List HistogramBin)
    (hne : bins ≠ []) (hcont : contiguous bins) (hwf : binsWF bins) (v : Int) :
    findBinIdx tmax bins v =
      if v = tmax then some (bins.length - 1)
      else
        match firstExceeding v bins with
        | none => none
        | some j =>
          if accepts tmax (bins.getD j defaultBin) v then some j else none := by
  have hlen : 0 < bins.length := List.length_pos.mpr hne
  have hlenL : (bins.map HistogramBin.stop).length = bins.length := List.length_map _ _
  by_cases hv : v = tmax
  · simp [findBinIdx, hv, isEmpty_eq_false_of_ne_nil hne]
  · rw [if_neg hv]
    obtain ⟨hub_le, hub_r, hub_l⟩ := upperBoundIdx_spec (bins.map HistogramBin.stop) v
    cases hfe : firstExceeding v bins with
    | none =>
      have hall := (firstExceeding_none_iff v bins).mp hfe
      have hjlen : upperBoundIdx (bins.map HistogramBin.stop) v = bins.length := by
        rcases hub_r with h | h
        · omega
        · by_contra hne2
          have hjlt : upperBoundIdx (bins.map HistogramBin.stop) v < bins.length := by
            omega
          rw [getD_map_stop bins _ hjlt] at h
          exact hall _ hjlt h
      simp only [findBinIdx, if_neg hv]
      rw [hjlen]
      simp
    | some k =>
      obtain ⟨hk1, hk2, hk3⟩ := (firstExceeding_some_iff v bins k).mp hfe
      have hjlt : upperBoundIdx (bins.map HistogramBin.stop) v < bins.length := by
        by_contra hge
        have hjlen : upperBoundIdx (bins.map HistogramBin.stop) v = bins.length := by
          omega
        rcases hub_l with h0 | hle2
        · omega
        · rw [hjlen, getD_map_stop bins _ (by omega)] at hle2
          have hm := eAt_mono bins hcont hwf k (bins.length - 1) (by omega) (by omega)
          omega
      have hvend : v < eAt bins (upperBoundIdx (bins.map HistogramBin.stop) v) := by
        rcases hub_r with h | h
        · omega
        · rwa [getD_map_stop bins _ hjlt] at h
      have hk_le : k ≤ upperBoundIdx (bins.map HistogramBin.stop) v := by
        by_contra hlt
        exact (hk3 _ (by omega)) hvend
      have hjk : upperBoundIdx (bins.map HistogramBin.stop) v = k := by
        rcases Nat.eq_or_lt_of_le hk_le with h | h
        · omega
        · exfalso
          rcases hub_l with h0 | hle2
          · omega
          · rw [getD_map_stop bins _ (by omega)] at hle2
            have hm := eAt_mono bins hcont hwf k
              (upperBoundIdx (bins.map HistogramBin.stop) v - 1) (by omega) (by omega)
            omega
      simp only [findBinIdx, if_neg hv]
      rw [hjk, if_pos hk1]

theorem C2_findBin_upper_bound_witness :
    findBinIdx 4294967295 [⟨0, 5, 0⟩, ⟨5, 4294967295, 0⟩] 3 = some 0 := by
  rw [C2_findBin_upper_bound 4294967295 [⟨0, 5, 0⟩, ⟨5, 4294967295, 0⟩]
    (by decide) (by decide) (by decide) 3]
  decide

/-- C3 (counterexample): the source's `accepts` tests
`value >= start && (value < end || value == max)` with no knowledge of
whether the bin is terminal, so *every* bin accepts the domain maximum:
for `tmax = 2^32 - 1`, the non-terminal bin `[0, 5)` of the valid
two-bin histogram `[0,5), [5,max)` accepts `tmax`, while the claim's
predicate (requiring the terminal bucket) rejects it — and both bins of
that histogram accept `tmax`, refuting "exactly one" and "only the last". -/
theorem C3_counterexample :
    accepts 4294967295 ⟨0, 5, 0⟩ 4294967295 = true ∧
    claimAccepts 4294967295 false ⟨0, 5, 0⟩ 4294967295 = false ∧
    goodBins 0 4294967295 [⟨0, 5, 0⟩, ⟨5, 4294967295, 0⟩] ∧
    binsWF [⟨0, 5, 0⟩, ⟨5, 4294967295, 0⟩] ∧
    accepts 4294967295
      (([⟨0, 5, 0⟩, ⟨5, 4294967295, 0⟩] : List HistogramBin).getD 0 defaultBin)
      4294967295 = true ∧
    accepts 4294967295
      (([⟨0, 5, 0⟩, ⟨5, 4294967295, 0⟩] : List HistogramBin).getD 1 defaultBin)
      4294967295 = true ∧
    (0 : Nat) ≠ ([⟨0, 5, 0⟩, ⟨5, 4294967295, 0⟩] : List HistogramBin).length - 1 := by
  decide

/-- C3 (amended): `accepts(v)` holds iff `start ≤ v` and (`v < end` or
`v = max`) — with no terminal-bucket condition.  Consequently, in a
histogram satisfying the invariants, every representable value *below the
maximum* is accepted by exactly one bin, while the maximum itself is
accepted by every bin (in particular by the last, which `findBin`
special-cases). -/
theorem C3_accepts_amended :
    (∀ (tmax : Int) (b : HistogramBin) (v : Int),
      accepts tmax b v = true ↔ (b.start ≤ v ∧ (v < b.stop ∨ v = tmax))) ∧
    (∀ (tmin tmax : Int) (bins : List HistogramBin), goodBins tmin tmax bins →
      binsWF bins → ∀ v, tmin ≤ v → v < tmax →
      ∃! j, j < bins.length ∧ accepts tmax (bins.getD j defaultBin) v = true) ∧
    (∀ (tmin tmax : Int) (bins : List HistogramBin), goodBins tmin tmax bins →
      binsWF bins → ∀ j, j < bins.length →
      accepts tmax (bins.getD j defaultBin) tmax = true) := by
  refine ⟨?_, ?_, ?_⟩
  · intro tmax b v
    simp [accepts]
  · intro tmin tmax bins hg hw v hlo hvmax
    obtain ⟨j, hj, hjlt, hcontain⟩ :=
      findBinIdx_good tmin tmax bins hg v hlo (le_of_lt hvmax)
    obtain ⟨hjs, hje⟩ := hcontain (ne_of_lt hvmax)
    refine ⟨j, ⟨hjlt, ?_⟩, ?_⟩
    · simp only [accepts, decide_eq_true_eq]
      exact ⟨hjs, Or.inl hje⟩
    · rintro k ⟨hklt, hkacc⟩
      simp only [accepts, decide_eq_true_eq] at hkacc
      have hks : sAt bins k ≤ v := hkacc.1
      have hke : v < eAt bins k := by
        rcases hkacc.2 with h | h
        · exact h
        · exact absurd h (ne_of_lt hvmax)
      by_contra hne2
      rcases Nat.lt_or_ge k j with h | h
      · have h1 : eAt bins k ≤ eAt bins (j - 1) :=
          eAt_mono bins hg.2.1 hw k (j - 1) (by omega) (by omega)
        have h2 : eAt bins (j - 1) = sAt bins j := by
          have hc := hg.2.1 (j - 1) (by omega)
          rwa [Nat.sub_add_cancel (by omega)] at hc
        omega
      · have hjk : j < k := by omega
        have h1 : eAt bins j ≤ eAt bins (k - 1) :=
          eAt_mono bins hg.2.1 hw j (k - 1) (by omega) (by omega)
        have h2 : eAt bins (k - 1) = sAt bins k := by
          have hc := hg.2.1 (k - 1) (by omega)
          rwa [Nat.sub_add_cancel (by omega)] at hc
        omega
  · intro tmin tmax bins hg hw j hj
    simp only [accepts, decide_eq_true_eq]
    refine ⟨?_, Or.inr trivial⟩
    have h1 : sAt bins j ≤ eAt bins j := hw j hj
    have h2 : eAt bins j ≤ eAt bins (bins.length - 1) :=
      eAt_mono bins hg.2.1 hw j (bins.length - 1) (by omega) (by omega)
    have h3 := hg.2.2.2
    show sAt bins j ≤ tmax
    omega

theorem C3_accepts_amended_witness :
    (∃! j, j < ([⟨0, 5, 0⟩, ⟨5, 4294967295, 0⟩] : List HistogramBin).length ∧
      accepts 4294967295
        (([⟨0, 5, 0⟩, ⟨5, 4294967295, 0⟩] : List HistogramBin).getD j defaultBin)
        3 = true) ∧
    accepts 4294967295
      (([⟨0, 5, 0⟩, ⟨5, 4294967295, 0⟩] : List HistogramBin).getD 1 defaultBin)
      4294967295 = true :=
  ⟨C3_accepts_amended.2.1 0 4294967295 [⟨0, 5, 0⟩, ⟨5, 4294967295, 0⟩]
      (by decide) (by decide) 3 (by decide) (by decide),
   C3_accepts_amended.2.2 0 4294967295 [⟨0, 5, 0⟩, ⟨5, 4294967295, 0⟩]
      (by decide) (by decide) 1 (by decide)⟩

/-- C7 (counterexample): `Histogram::total` is
`std::accumulate(begin(), end(), 0, a)`, whose accumulation type is the
`int` deduced from the literal `0`.  A single bucket counter of `2^31`
(reachable for a high-frequency histogram) overflows the 32-bit
accumulator: the final `int` is `-2^31`, which the `size_t` return type
turns into `2^64 - 2^31`, not the sum of the counters. -/
theorem C7_counterexample :
    total [⟨0, 5, 2147483648⟩, ⟨5, 4294967295, 0⟩] = 18446744071562067968 ∧
    (([⟨0, 5, 2147483648⟩, ⟨5, 4294967295, 0⟩] : List HistogramBin).map
      HistogramBin.count).sum = 2147483648 ∧
    total [⟨0, 5, 2147483648⟩, ⟨5, 4294967295, 0⟩] ≠
      (([⟨0, 5, 2147483648⟩, ⟨5, 4294967295, 0⟩] : List HistogramBin).map
        HistogramBin.count).sum := by
  decide

/-- C7 (amended): provided the sum of all bucket counters plus `N` stays
below `INT_MAX` (`2^31`, the limit of the `int` accumulator
`std::accumulate` deduces from its literal `0` initial value), `total()`
equals the sum of all bucket counters, and `N` sequential `add(v, 1)`
calls increase the owning bin's counter by exactly `N` and `total()` by
exactly `N`, for every representable `v`. -/
theorem C7_sequential_adds (tmin tmax : Int) (bins : List HistogramBin)
    (hg : goodBins tmin tmax bins) (v : Int) (hlo : tmin ≤ v) (hhi : v ≤ tmax)
    (N : Nat)
    (hbound : (bins.map HistogramBin.count).sum + N < 2 ^ 31) :
    total bins = (bins.map HistogramBin.count).sum ∧
    ∃ j bins', findBinIdx tmax bins v = some j ∧
      applyOps tmax bins (List.replicate N (HOp.addOp v 1)) = some bins' ∧
      cAt bins' j = cAt bins j + N ∧ total bins' = total bins + N := by
  have hsum0 : (bins.map HistogramBin.count).sum < 2 ^ 31 := by omega
  refine ⟨total_eq_sum bins hsum0, ?_⟩
  obtain ⟨j, hj, hjlt, _⟩ := findBinIdx_good tmin tmax bins hg v hlo hhi
  suffices haux : ∀ (N : Nat) (bs : List HistogramBin),
      findBinIdx tmax bs v = some j → j < bs.length →
      ∃ bins', applyOps tmax bs (List.replicate N (HOp.addOp v 1)) = some bins' ∧
        cAt bins' j = cAt bs j + N ∧
        (bins'.map HistogramBin.count).sum =
          (bs.map HistogramBin.count).sum + N by
    obtain ⟨bins', h1, h2, h3⟩ := haux N bins hj hjlt
    refine ⟨j, bins', hj, h1, h2, ?_⟩
    rw [total_eq_sum bins' (by omega), h3, total_eq_sum bins hsum0]
  intro N
  induction N with
  | zero =>
    intro bs _ _
    exact ⟨bs, rfl, by omega, by omega⟩
  | succ m ihm =>
    intro bs hjb hjlen
    have hstep : applyOps tmax bs (List.replicate (m + 1) (HOp.addOp v 1)) =
        applyOps tmax (modifyCount bs j 1) (List.replicate m (HOp.addOp v 1)) := by
      simp [List.replicate_succ, applyOps, applyOp, add, hjb]
    have hfind2 : findBinIdx tmax (modifyCount bs j 1) v = some j := by
      rw [findBinIdx_modifyCount]; exact hjb
    obtain ⟨bins', h1, h2, h3⟩ := ihm (modifyCount bs j 1) hfind2
      (by rw [length_modifyCount]; exact hjlen)
    refine ⟨bins', by rw [hstep]; exact h1, ?_, ?_⟩
    · rw [h2, cAt_modifyCount_self bs j 1 hjlen]; omega
    · rw [h3, sum_map_count_modifyCount bs j 1 hjlen]; omega

theorem C7_sequential_adds_witness :
    total [⟨0, 5, 0⟩, ⟨5, 4294967295, 0⟩] =
      (([⟨0, 5, 0⟩, ⟨5, 4294967295, 0⟩] : List HistogramBin).map
        HistogramBin.count).sum ∧
    ∃ j bins', findBinIdx 4294967295 [⟨0, 5, 0⟩, ⟨5, 4294967295, 0⟩] 3 = some j ∧
      applyOps 4294967295 [⟨0, 5, 0⟩, ⟨5, 4294967295, 0⟩]
        (List.replicate 2 (HOp.addOp 3 1)) = some bins' ∧
      cAt bins' j = cAt [⟨0, 5, 0⟩, ⟨5, 4294967295, 0⟩] j + 2 ∧
      total bins' = total [⟨0, 5, 0⟩, ⟨5, 4294967295, 0⟩] + 2 :=
  C7_sequential_adds 0 4294967295 [⟨0, 5, 0⟩, ⟨5, 4294967295, 0⟩] (by decide)
    3 (by decide) (by decide) 2 (by decide)

/-- Growth factor 1 freezes the width, so the generator produces
fixed-width bins. -/
theorem gwBucket_growth_one (st : GrowingWidthGenerator) (h : st.growth = 1)
    (k : Nat) :
    gwBucket st k = ⟨st.start + (k : ℤ) * truncQ st.width,
      st.start + ((k : ℤ) + 1) * truncQ st.width, 0⟩ := by
  have h1 : gwBucket st k = ⟨(gwState st k).start,
      (gwState st k).start + truncQ ((gwState st k).width), 0⟩ := rfl
  have hw : (gwState st k).width = st.width := by
    rw [gwState_width st k, h, one_pow, mul_one]
  rw [h1, hw, gwCursor_one st h k]
  have h2 : st.start + (k : ℤ) * truncQ st.width + truncQ st.width =
      st.start + ((k : ℤ) + 1) * truncQ st.width := by ring
  rw [h2]

/-- C8: the growing-width generator yields `[cursor, cursor + width)` on
each call (width cast to `T`), then advances the cursor by the cast width
and multiplies the width by the growth factor (`width_k = width·growth^k`,
and each bin starts where the previous one ended); `growth = 1` gives
fixed-width bins; with `start = 0, width = 10, growth = 2` the first three
calls yield exactly `[0,10), [10,30), [30,70)`. -/
theorem C8_growing_width_generator :
    (∀ (st : GrowingWidthGenerator) (k : Nat),
      (gwState st k).growth = st.growth ∧
      (gwState st k).width = st.width * st.growth ^ k ∧
      gwBucket st k = ⟨(gwState st k).start,
        (gwState st k).start + truncQ (st.width * st.growth ^ k), 0⟩ ∧
      (gwState st (k + 1)).start = (gwBucket st k).stop) ∧
    (∀ (st : GrowingWidthGenerator), st.growth = 1 → ∀ k,
      gwBucket st k = ⟨st.start + (k : ℤ) * truncQ st.width,
        st.start + ((k : ℤ) + 1) * truncQ st.width, 0⟩) ∧
    (gwBucket (gwInit 0 10 2) 0 = ⟨0, 10, 0⟩ ∧
     gwBucket (gwInit 0 10 2) 1 = ⟨10, 30, 0⟩ ∧
     gwBucket (gwInit 0 10 2) 2 = ⟨30, 70, 0⟩) := by
  have t10 : truncQ ((10 : ℤ) : ℚ) = 10 := truncQ_intCast 10
  have t20 : truncQ (((10 : ℤ) : ℚ) * 2) = 20 := by
    have h : ((10 : ℤ) : ℚ) * 2 = ((20 : ℤ) : ℚ) := by norm_num
    rw [h, truncQ_intCast]
  have t40 : truncQ ((((10 : ℤ) : ℚ) * 2) * 2) = 40 := by
    have h : (((10 : ℤ) : ℚ) * 2) * 2 = ((40 : ℤ) : ℚ) := by norm_num
    rw [h, truncQ_intCast]
  have hs1 : gwState (gwInit 0 10 2) 1 = ⟨2, 10, ((10 : ℤ) : ℚ) * 2⟩ := by
    have h : gwState (gwInit 0 10 2) 1 = (gwNext (gwInit 0 10 2)).2 := rfl
    rw [h]
    show (⟨2, 0 + truncQ ((10 : ℤ) : ℚ), ((10 : ℤ) : ℚ) * 2⟩ : GrowingWidthGenerator) =
      ⟨2, 10, ((10 : ℤ) : ℚ) * 2⟩
    rw [t10]
    norm_num
  have hs2 : gwState (gwInit 0 10 2) 2 = ⟨2, 30, (((10 : ℤ) : ℚ) * 2) * 2⟩ := by
    have h : gwState (gwInit 0 10 2) 2 = (gwNext (gwState (gwInit 0 10 2) 1)).2 := rfl
    rw [h, hs1]
    show (⟨2, 10 + truncQ (((10 : ℤ) : ℚ) * 2), (((10 : ℤ) : ℚ) * 2) * 2⟩ :
      GrowingWidthGenerator) = ⟨2, 30, (((10 : ℤ) : ℚ) * 2) * 2⟩
    rw [t20]
    norm_num
  refine ⟨?_, ?_, ?_, ?_, ?_⟩
  · intro st k
    exact ⟨gwState_growth st k, gwState_width st k, gwBucket_eq st k,
      gwState_start_succ st k⟩
  · intro st h k
    exact gwBucket_growth_one st h k
  · have h : gwBucket (gwInit 0 10 2) 0 = ⟨0, 0 + truncQ ((10 : ℤ) : ℚ), 0⟩ := rfl
    rw [h, t10]
    norm_num
  · have h : gwBucket (gwInit 0 10 2) 1 = (gwNext (gwState (gwInit 0 10 2) 1)).1 := rfl
    rw [h, hs1]
    show (⟨10, 10 + truncQ (((10 : ℤ) : ℚ) * 2), 0⟩ : HistogramBin) = ⟨10, 30, 0⟩
    rw [t20]
    norm_num
  · have h : gwBucket (gwInit 0 10 2) 2 = (gwNext (gwState (gwInit 0 10 2) 2)).1 := rfl
    rw [h, hs2]
    show (⟨30, 30 + truncQ ((((10 : ℤ) : ℚ) * 2) * 2), 0⟩ : HistogramBin) = ⟨30, 70, 0⟩
    rw [t40]
    norm_num

theorem C8_growing_width_generator_witness :
    gwBucket (gwInit 0 10 1) 2 = ⟨20, 30, 0⟩ := by
  have h := C8_growing_width_generator.2.1 (gwInit 0 10 1) (by decide) 2
  rw [h]; decide

/-- C9: the exponential generator with exponent `i` and base `b` yields
`[b^i, b^(i+1))` on each call (endpoints cast to `T`) and increments the
exponent; with starting exponent 0 and base 2 the first calls yield
exactly `[1,2), [2,4), [4,8)`. -/
theorem C9_exponential_generator :
    (∀ (g : ExponentialGenerator) (k : Nat), expState g k = ⟨g.start + k, g.power⟩) ∧
    (∀ (b i0 k : Nat), expBucket ⟨i0, (b : ℚ)⟩ k =
      ⟨(b : ℤ) ^ (i0 + k), (b : ℤ) ^ (i0 + k + 1), 0⟩) ∧
    (expBucket ⟨0, (2 : ℚ)⟩ 0 = ⟨1, 2, 0⟩ ∧
     expBucket ⟨0, (2 : ℚ)⟩ 1 = ⟨2, 4, 0⟩ ∧
     expBucket ⟨0, (2 : ℚ)⟩ 2 = ⟨4, 8, 0⟩) :=
  ⟨fun g k => expState_eq g k, fun b i0 k => expBucket_pow b i0 k, by decide⟩

/-- C10: on scope exit with elapsed nanoseconds `spent`, the block timer
adds `spent / 1000` (microseconds) to the destination histogram exactly
when one was supplied; writes the name together with `spent` (nanoseconds)
to the output stream exactly when both a name and a stream were supplied;
and writes the slow-operation warning with the name and `spent / 1000000`
(milliseconds) to the error channel iff `THRESHOLD_MS > 0`, a name was
supplied, and `spent / 1000000 > THRESHOLD_MS`. -/
theorem C10_block_timer_exit (thresholdMs : Nat) (hasDest : Bool)
    (name : Option String) (hasOut : Bool) (spent : Nat) :
    (hasDest = true →
      (blockTimerExit thresholdMs hasDest name hasOut spent).histAdd =
        some (spent / 1000)) ∧
    (hasDest = false →
      (blockTimerExit thresholdMs hasDest name hasOut spent).histAdd = none) ∧
    (∀ n, name = some n → hasOut = true →
      (blockTimerExit thresholdMs hasDest name hasOut spent).outLine =
        some (n, spent)) ∧
    (name = none ∨ hasOut = false →
      (blockTimerExit thresholdMs hasDest name hasOut spent).outLine = none) ∧
    (∀ n, (0 < thresholdMs ∧ name = some n ∧ thresholdMs < spent / 1000000) →
      (blockTimerExit thresholdMs hasDest name hasOut spent).warn =
        some (n, spent / 1000000)) ∧
    ((blockTimerExit thresholdMs hasDest name hasOut spent).warn ≠ none →
      (0 < thresholdMs ∧ ∃ n, name = some n ∧ thresholdMs < spent / 1000000)) := by
  refine ⟨?_, ?_, ?_, ?_, ?_, ?_⟩
  · intro h; simp [blockTimerExit, h]
  · intro h; simp [blockTimerExit, h]
  · intro n h1 h2; simp [blockTimerExit, h1, h2]
  · intro h
    rcases h with h | h
    · simp [blockTimerExit, h]
    · cases name <;> simp [blockTimerExit, h]
  · rintro n ⟨h1, h2, h3⟩
    simp [blockTimerExit, h1, h2, h3]
  · intro h
    rcases hn : name with _ | m
    · rw [hn] at h
      by_cases ht : 0 < thresholdMs <;> simp [blockTimerExit, ht] at h
    · rw [hn] at h
      by_cases ht : 0 < thresholdMs
      · by_cases hs : thresholdMs < spent / 1000000
        · exact ⟨ht, m, rfl, hs⟩
        · simp [blockTimerExit, ht, hs] at h
      · simp [blockTimerExit, ht] at h

theorem C10_block_timer_exit_witness :
    (blockTimerExit 10 true (some "op") true 25000000).histAdd = some 25000 ∧
    (blockTimerExit 10 true (some "op") true 25000000).outLine =
      some ("op", 25000000) ∧
    (blockTimerExit 10 true (some "op") true 25000000).warn = some ("op", 25) := by
  have h := C10_block_timer_exit 10 true (some "op") true 25000000
  exact ⟨h.1 rfl, h.2.2.1 "op" rfl rfl, h.2.2.2.2.1 "op" ⟨by decide, rfl, by decide⟩⟩

end Platform
